import Mathlib

/-!
Verification development for the streaming XML parsing core of the
repository (minidom tokenizer, tree builder, namespace sets).

The byte-level parsers of `src/minidom/src/token.rs` are built from nom's
streaming combinators; they are embedded here as total functions from byte
lists to an explicit result type that mirrors nom's
`IResult` (`ok` with remaining input, recoverable `err`, unrecoverable
`fail`, `incomplete`) extended with a `panic` outcome that models a Rust
panic (needed because the CDATA scanning loop computes `s.len() - 2` on a
`usize`).  Strings are `List Char`, bytes are `Nat`.
-/

/-- Decoded UTF-8 string, as a list of Unicode scalar values. -/
abbrev Str := List Char

/-- Result of a nom-style streaming parser over a byte buffer, plus a
`panic` outcome for Rust panics. `ok rest val` carries the *remaining*
input, as nom does. -/
inductive PResult (α : Type) where
  | ok (rest : List Nat) (val : α)
  | err
  | fail
  | incomplete
  | panic
deriving DecidableEq, Repr

/-- Sequencing of parser results: mirrors the `?` operator on `IResult`. -/
def pbind {α β : Type} (r : PResult α) (f : List Nat → α → PResult β) : PResult β :=
  match r with
  | .ok s a => f s a
  | .err => .err
  | .fail => .fail
  | .incomplete => .incomplete
  | .panic => .panic

/-- nom `alt` on two results: the second branch is tried only after a
recoverable error of the first. -/
def palt {α : Type} (a b : PResult α) : PResult α :=
  match a with
  | .err => b
  | r => r

/-- `nom::character::is_space`: space and tab. -/
def isSpaceB (b : Nat) : Bool := b = 32 || b = 9

/-- ASCII decimal digit. -/
def isDigitB (b : Nat) : Bool := 48 ≤ b && b ≤ 57

/-- ASCII hexadecimal digit (as accepted by `nom::number::streaming::hex_u32`). -/
def isHexB (b : Nat) : Bool :=
  (48 ≤ b && b ≤ 57) || (97 ≤ b && b ≤ 102) || (65 ≤ b && b ≤ 70)

/-- Value of an ASCII hex digit. -/
def hexValB (b : Nat) : Nat :=
  if b ≤ 57 then b - 48 else if b ≤ 70 then b - 55 else b - 87

/-- `nom::bytes::streaming::tag`: consume the literal `t`; `incomplete`
when the input is a proper prefix of `t`, recoverable error on mismatch. -/
def tagP (t : List Nat) (s : List Nat) : PResult (List Nat) :=
  if s.length < t.length then
    if s = t.take s.length then .incomplete else .err
  else
    if s.take t.length = t then .ok (s.drop t.length) t else .err

/-- `nom::bytes::streaming::take_while1`: longest nonempty matching run;
`incomplete` at end of input (more matching bytes could follow), error if
the first byte does not match. -/
def takeWhile1P (p : Nat → Bool) (s : List Nat) : PResult (List Nat) :=
  match s with
  | [] => .incomplete
  | b :: _ =>
    if p b then
      let taken := s.takeWhile p
      if taken.length = s.length then .incomplete
      else .ok (s.drop taken.length) taken
    else .err

/-- `nom::character::streaming::space0`: zero or more spaces/tabs;
`incomplete` when the run reaches the end of input. -/
def space0P (s : List Nat) : PResult Unit :=
  let taken := s.takeWhile isSpaceB
  if taken.length = s.length then .incomplete
  else .ok (s.drop taken.length) ()

/-- `nom::character::streaming::char c` on a byte buffer (ASCII `c`). -/
def charP (c : Nat) (s : List Nat) : PResult Nat :=
  match s with
  | [] => .incomplete
  | b :: rest => if b = c then .ok rest c else .err

/-- `nom::character::streaming::one_of "'\""`: matches a single-quote or
double-quote byte and returns it. -/
def quoteP (s : List Nat) : PResult Nat :=
  match s with
  | [] => .incomplete
  | b :: rest => if b = 39 || b = 34 then .ok rest b else .err

/-- `nom::combinator::not(peek(char c))`: succeeds without consuming when
`char c` fails recoverably; fails when it succeeds; propagates
`incomplete`. -/
def notPeekCharP (c : Nat) (s : List Nat) : PResult Unit :=
  match charP c s with
  | .ok _ _ => .err
  | .err => .ok s ()
  | .fail => .fail
  | .incomplete => .incomplete
  | .panic => .panic

/-- `nom::character::streaming::digit1`. -/
def digit1P (s : List Nat) : PResult (List Nat) :=
  takeWhile1P isDigitB s

/-- `nom::number::streaming::hex_u32`: `is_a` over hex digits (streaming),
then at most 8 digits are folded into the value. -/
def hexU32P (s : List Nat) : PResult Nat :=
  match s with
  | [] => .incomplete
  | b :: _ =>
    if isHexB b then
      let taken := s.takeWhile isHexB
      if taken.length = s.length then .incomplete
      else
        let parsed := if taken.length ≤ 8 then taken else s.take 8
        let rest := if taken.length ≤ 8 then s.drop taken.length else s.drop 8
        .ok rest (parsed.foldl (fun acc d => acc * 16 + hexValB d) 0)
    else .err

/-- `nom::multi::many0`, with explicit fuel for the loop.  Mirrors nom's
guard: an inner success that consumes nothing is a recoverable error
(`ErrorKind::Many0`); an inner recoverable error ends the loop.  Every
inner parser used in the source consumes at least one byte on success, so
fuel `input length + 1` never runs out (the fuel-0 case is unreachable). -/
def many0F {α : Type} (p : List Nat → PResult α) : Nat → List Nat → PResult (List α)
  | 0, _ => .err
  | fuel + 1, s =>
    match p s with
    | .err => .ok s []
    | .fail => .fail
    | .incomplete => .incomplete
    | .panic => .panic
    | .ok s1 a =>
      if s1.length = s.length then .err
      else
        match many0F p fuel s1 with
        | .ok s2 acc => .ok s2 (a :: acc)
        | .err => .err
        | .fail => .fail
        | .incomplete => .incomplete
        | .panic => .panic

/-- `nom::multi::many0` as used in the source: fueled by the input length. -/
def many0P {α : Type} (p : List Nat → PResult α) (s : List Nat) : PResult (List α) :=
  many0F p (s.length + 1) s

/-- Is `b` a UTF-8 continuation byte? -/
def isContB (b : Nat) : Bool := 128 ≤ b && b ≤ 191

/-- UTF-8 decoding (as validated by Rust's `std::str::from_utf8`), fueled
by the number of decoded scalars; rejects overlong forms, surrogates and
values above `0x10FFFF`.  Fuel `input length` always suffices since every
scalar consumes at least one byte. -/
def utf8DecodeF : Nat → List Nat → Option (List Char)
  | _, [] => some []
  | 0, _ :: _ => none
  | fuel + 1, b :: l =>
    if b ≤ 127 then
      (utf8DecodeF fuel l).map (fun cs => Char.ofNat b :: cs)
    else if 194 ≤ b && b ≤ 223 then
      match l with
      | b1 :: l1 =>
        if isContB b1 then
          (utf8DecodeF fuel l1).map
            (fun cs => Char.ofNat ((b - 192) * 64 + (b1 - 128)) :: cs)
        else none
      | [] => none
    else if 224 ≤ b && b ≤ 239 then
      match l with
      | b1 :: b2 :: l2 =>
        let firstOk :=
          if b = 224 then 160 ≤ b1 && b1 ≤ 191
          else if b = 237 then 128 ≤ b1 && b1 ≤ 159
          else isContB b1
        if firstOk && isContB b2 then
          (utf8DecodeF fuel l2).map
            (fun cs => Char.ofNat ((b - 224) * 4096 + (b1 - 128) * 64 + (b2 - 128)) :: cs)
        else none
      | _ => none
    else if 240 ≤ b && b ≤ 244 then
      match l with
      | b1 :: b2 :: b3 :: l3 =>
        let firstOk :=
          if b = 240 then 144 ≤ b1 && b1 ≤ 191
          else if b = 244 then 128 ≤ b1 && b1 ≤ 143
          else isContB b1
        if firstOk && isContB b2 && isContB b3 then
          (utf8DecodeF fuel l3).map
            (fun cs => Char.ofNat
              ((b - 240) * 262144 + (b1 - 128) * 4096 + (b2 - 128) * 64 + (b3 - 128)) :: cs)
        else none
      | _ => none
    else none

/-- `std::str::from_utf8` on a byte slice. -/
def utf8Decode (s : List Nat) : Option (List Char) :=
  utf8DecodeF s.length s

/-- Qualified name: `token.rs` `LocalName` (its `prefix` field is called
`pfx` here). -/
structure LocalName where
  pfx : Option Str
  name : Str
deriving DecidableEq, Repr

/-- Split a string at the first `:`; `str::split_once(':')`. -/
def splitOnceColon : Str → Option (Str × Str)
  | [] => none
  | c :: t =>
    if c = ':' then some ([], t)
    else (splitOnceColon t).map (fun p => (c :: p.1, p.2))

/-- `impl From<&str> for LocalName`. -/
def LocalName.ofStr (s : Str) : LocalName :=
  match splitOnceColon s with
  | some (p, n) => { pfx := some p, name := n }
  | none => { pfx := none, name := s }

/-- `token.rs` `Attribute`. -/
structure Attribute where
  name : LocalName
  value : Str
deriving DecidableEq, Repr

/-- `token.rs` `Token`, with the extra `xmlDecl` variant matched by
`tree_builder.rs` (its fields are unused there and omitted). -/
inductive Token where
  | startTag (name : LocalName) (attrs : List Attribute) (selfClosing : Bool)
  | endTag (name : LocalName)
  | text (s : Str)
  | xmlDecl
deriving DecidableEq, Repr

/-- Bytes of an ASCII string literal (used to state concrete inputs). -/
def strBytes (s : String) : List Nat := s.toList.map Char.toNat

/-- `u32::from_str` on a digit string: the numeric value, or `none` on
overflow past `u32::MAX`. -/
def parseU32 (digits : Str) : Option Nat :=
  let v := digits.foldl (fun acc c => acc * 10 + (c.toNat - 48)) 0
  if v ≤ 4294967295 then some v else none

/-- `char::from_u32` composed with `format!("{}", c)` / the empty-string
fallback of `Token::parse_text`. -/
def charFromU32OrEmpty (n : Nat) : Str :=
  if n.isValidChar then [Char.ofNat n] else []

/-- The decimal character-reference branch of `Token::parse_text`:
`&#N;`, where an unparseable (overflowing) `N` is a nom `Failure`. -/
def decEntityP (s : List Nat) : PResult Str :=
  pbind (tagP (strBytes "&#") s) fun s _ =>
  pbind (digit1P s) fun s num =>
  pbind (charP 59 s) fun s _ =>
  match utf8Decode num with
  | none => .fail
  | some numStr =>
    match parseU32 numStr with
    | none => .fail
    | some n => .ok s (charFromU32OrEmpty n)

/-- The hexadecimal character-reference branch of `Token::parse_text`:
`&#xH;`. -/
def hexEntityP (s : List Nat) : PResult Str :=
  pbind (tagP (strBytes "&#x") s) fun s _ =>
  pbind (hexU32P s) fun s n =>
  pbind (charP 59 s) fun s _ =>
  .ok s (charFromU32OrEmpty n)

/-- The named-entity branch of `Token::parse_text`: the five predefined
entities. -/
def namedEntityP (s : List Nat) : PResult Str :=
  pbind (charP 38 s) fun s _ =>
  pbind (palt (pbind (tagP (strBytes "amp") s) fun s _ => .ok s '&')
         (palt (pbind (tagP (strBytes "lt") s) fun s _ => .ok s '<')
          (palt (pbind (tagP (strBytes "gt") s) fun s _ => .ok s '>')
           (palt (pbind (tagP (strBytes "quot") s) fun s _ => .ok s '"')
            (pbind (tagP (strBytes "apos") s) fun s _ => .ok s '\''))))) fun s c =>
  pbind (charP 59 s) fun s _ =>
  .ok s [c]

/-- The plain-text branch of `Token::parse_text`: bytes up to the
terminator or `&`, checked as UTF-8. -/
def rawTextP (stopB : Nat) (s : List Nat) : PResult Str :=
  pbind (notPeekCharP stopB s) fun s _ =>
  pbind (takeWhile1P (fun b => b ≠ stopB && b ≠ 38) s) fun s bytes =>
  match utf8Decode bytes with
  | none => .fail
  | some text => .ok s text

/-- One alternative of the `many0` loop in `Token::parse_text`. -/
def textPieceP (stopB : Nat) (s : List Nat) : PResult Str :=
  palt (decEntityP s)
   (palt (hexEntityP s)
    (palt (namedEntityP s)
     (rawTextP stopB s)))

/-- `Token::parse_text`: `many0` of the four branches, results joined. -/
def parseText (stopB : Nat) (s : List Nat) : PResult Str :=
  pbind (many0P (textPieceP stopB) s) fun s pieces =>
  .ok s pieces.flatten

/-- `Token::parse_attr`: name, `=`, quoted value (entity-decoded). -/
def parseAttr (s : List Nat) : PResult (Str × Str) :=
  pbind (takeWhile1P (fun b => !(isSpaceB b || b = 61 || b = 47 || b = 62)) s) fun s nameBytes =>
  match utf8Decode nameBytes with
  | none => .fail
  | some name =>
    pbind (space0P s) fun s _ =>
    pbind (tagP (strBytes "=") s) fun s _ =>
    pbind (space0P s) fun s _ =>
    pbind (quoteP s) fun s delim =>
    pbind (parseText delim s) fun s value =>
    pbind (charP delim s) fun s _ =>
    .ok s (name, value)

/-- The CDATA branch of `Token::parse_tag` (after the leading `<`): the
source scans `for i in 0..s.len() - 2`, a `usize` subtraction that
panics (directly in debug, via slice indexing in release) when fewer than
two bytes follow `<![CDATA[`; that is the `panic` outcome. -/
def cdataP (s : List Nat) : PResult Token :=
  pbind (tagP (strBytes "![CDATA[") s) fun s _ =>
  if s.length < 2 then .panic
  else
    match (List.range (s.length - 2)).find? (fun i => (s.drop i).take 3 == strBytes "]]>") with
    | some e =>
      match utf8Decode (s.take e) with
      | none => .fail
      | some text => .ok (s.drop (e + 3)) (.text text)
    | none => .incomplete

/-- The end-tag branch of `Token::parse_tag` (after the leading `<`). -/
def endTagP (s : List Nat) : PResult Token :=
  pbind (tagP (strBytes "/") s) fun s _ =>
  pbind (space0P s) fun s _ =>
  pbind (takeWhile1P (fun b => !(isSpaceB b || b = 62)) s) fun s nameBytes =>
  pbind (space0P s) fun s _ =>
  pbind (tagP (strBytes ">") s) fun s _ =>
  match utf8Decode nameBytes with
  | none => .fail
  | some name => .ok s (.endTag (LocalName.ofStr name))

/-- The start-tag branch of `Token::parse_tag` (after the leading `<`). -/
def startTagP (s : List Nat) : PResult Token :=
  pbind (space0P s) fun s _ =>
  pbind (takeWhile1P (fun b => !(isSpaceB b || b = 62 || b = 47)) s) fun s nameBytes =>
  pbind (space0P s) fun s _ =>
  pbind (many0P (fun s =>
          pbind (parseAttr s) fun s nv =>
          pbind (space0P s) fun s _ =>
          .ok s nv) s) fun s attrs =>
  pbind (palt
          (pbind (tagP (strBytes "/") s) fun s _ =>
           pbind (space0P s) fun s _ =>
           pbind (tagP (strBytes ">") s) fun s _ =>
           .ok s true)
          (pbind (tagP (strBytes ">") s) fun s _ =>
           .ok s false)) fun s selfClosing =>
  match utf8Decode nameBytes with
  | none => .fail
  | some name =>
    .ok s (.startTag (LocalName.ofStr name)
      (attrs.map fun nv => { name := LocalName.ofStr nv.1, value := nv.2 })
      selfClosing)

/-- `Token::parse_tag`: `<` then CDATA / end tag / start tag. -/
def parseTag (s : List Nat) : PResult Token :=
  pbind (tagP (strBytes "<") s) fun s _ =>
  palt (cdataP s) (palt (endTagP s) (startTagP s))

/-- `Token::parse`: a tag, or a text run terminated by `<`. -/
def tokenParse (s : List Nat) : PResult Token :=
  palt (parseTag s)
    (pbind (parseText 60 s) fun s text => .ok s (.text text))

/-- Outcome of one `Tokenizer::pull`. -/
inductive PullRes where
  | okSome (t : Token)
  | okNone
  | error
  | panicked
deriving DecidableEq, Repr

/-- `Tokenizer::pull` on a buffer: parse, then `split_to(len - s_len)`
keeps the last `s_len` bytes.  Returns the result and the new buffer. -/
def pullStep (buffer : List Nat) : PullRes × List Nat :=
  match tokenParse buffer with
  | .ok s t => (.okSome t, buffer.drop (buffer.length - s.length))
  | .incomplete => (.okNone, buffer)
  | .err => (.error, buffer)
  | .fail => (.error, buffer)
  | .panic => (.panicked, buffer)

/-- `Tokenizer::push`: append bytes to the buffer. -/
def pushBytes (buffer bytes : List Nat) : List Nat := buffer ++ bytes

/-- How a pull-exhaustively loop ended. -/
inductive RunEnd where
  | done
  | errored
  | panicked
  | fuelOut
deriving DecidableEq, Repr

/-- Pull repeatedly (as the caller loop in the source's test does), up to
`Ok(None)`, an error, or a panic; collects the emitted tokens. -/
def pullLoop : Nat → List Nat → List Token × List Nat × RunEnd
  | 0, buf => ([], buf, .fuelOut)
  | fuel + 1, buf =>
    match pullStep buf with
    | (.okSome t, buf1) =>
      let r := pullLoop fuel buf1
      (t :: r.1, r.2)
    | (.okNone, buf1) => ([], buf1, .done)
    | (.error, buf1) => ([], buf1, .errored)
    | (.panicked, buf1) => ([], buf1, .panicked)

/-- Push a whole byte sequence into a fresh tokenizer and pull
exhaustively. -/
def runOneShot (fuel : Nat) (bytes : List Nat) : List Token × List Nat × RunEnd :=
  pullLoop fuel (pushBytes [] bytes)

/-- Push chunks one at a time, pulling exhaustively after each push;
stops early on error or panic. -/
def runChunks (fuel : Nat) : List (List Nat) → List Nat → List Token × List Nat × RunEnd
  | [], buf => ([], buf, .done)
  | c :: cs, buf =>
    match pullLoop fuel (pushBytes buf c) with
    | (toks, buf1, .done) =>
      let r := runChunks fuel cs buf1
      (toks ++ r.1, r.2)
    | (toks, buf1, e) => (toks, buf1, e)

/-- Association-list lookup: models `BTreeMap::get`. -/
def alGet {κ ν : Type} [DecidableEq κ] : List (κ × ν) → κ → Option ν
  | [], _ => none
  | (k1, v1) :: rest, k => if k1 = k then some v1 else alGet rest k

/-- Association-list insert-or-replace: models `BTreeMap::insert` (the
iteration order of the map is not observed by any claim). -/
def alInsert {κ ν : Type} [DecidableEq κ] : List (κ × ν) → κ → ν → List (κ × ν)
  | [], k, v => [(k, v)]
  | (k1, v1) :: rest, k, v =>
    if k1 = k then (k, v) :: rest else (k1, v1) :: alInsert rest k v

/-- Modelled from the spec: `Prefixes` (`minidom/src/prefixes.rs` is not
part of the sources); per spec §4.4 a fresh, initially empty map from
optional prefix to namespace URI, filled from the `xmlns`/`xmlns:P`
attributes of the current start tag. -/
def Prefixes := List (Option Str × Str)
deriving DecidableEq, Repr

/-- `Prefixes::default()`: the empty map. -/
def Prefixes.empty : Prefixes := []

/-- Builder-level errors of `process_token`. -/
inductive XmlError where
  | missingNamespace
  | invalidElementClosed
deriving DecidableEq, Repr

/-- Result of one `process_token` call. -/
inductive BuildRes where
  | ok
  | error (e : XmlError)
deriving DecidableEq, Repr

mutual
/-- Modelled from the spec: `Element` (`minidom/src/element.rs` is not
part of the sources); per spec §3 it records
`(localname, namespace_uri, prefix_option, local_prefixes, attributes, children)`
— the `prefix_option` the builder passes is `Some(name.prefix)`, hence the
doubled `Option`. -/
inductive Element where
  | mk (name : Str) (namespaceUri : Str) (pfx : Option (Option Str))
       (prefixes : Prefixes) (attributes : List (Str × Str))
       (children : List Child)

/-- A child node of an `Element`: a nested element or a text node. -/
inductive Child where
  | element (el : Element)
  | textNode (s : Str)
end

/-- The element's local name. -/
def Element.name : Element → Str
  | .mk n _ _ _ _ _ => n

/-- The element's stored prefix (`Some(name.prefix)` as the builder passes it). -/
def Element.pfx : Element → Option (Option Str)
  | .mk _ _ p _ _ _ => p

/-- `Element::append_child`: append at the tail. -/
def Element.appendChild : Element → Element → Element
  | .mk n ns p pr a ch, el => .mk n ns p pr a (ch ++ [.element el])

/-- `Element::append_text_node`: append at the tail. -/
def Element.appendTextNode : Element → Str → Element
  | .mk n ns p pr a ch, t => .mk n ns p pr a (ch ++ [.textNode t])

/-- `tree_builder.rs` `TreeBuilder` state. -/
structure TreeBuilder where
  stack : List Element
  prefixesStack : List Prefixes
  root : Option Element

/-- `TreeBuilder::new()`. -/
def TreeBuilder.new : TreeBuilder :=
  { stack := [], prefixesStack := [], root := none }

/-- Iteration of `prefixes_stack.iter().rev()` in `lookup_prefix`:
the argument list is already reversed (innermost scope first). -/
def lookupPfxRev (sets : List Prefixes) (p : Option Str) : Option Str :=
  match sets with
  | [] => none
  | m :: rest =>
    match alGet m p with
    | some ns => some ns
    | none => lookupPfxRev rest p

/-- `TreeBuilder::lookup_prefix`. -/
def TreeBuilder.lookupPfx (tb : TreeBuilder) (p : Option Str) : Option Str :=
  lookupPfxRev tb.prefixesStack.reverse p

/-- The attribute scan at the top of `process_start_tag`: `xmlns`/`xmlns:P`
attributes populate the fresh `Prefixes`, everything else lands in the
attribute map under `prefix:localname`. -/
def scanAttrs (attrs : List Attribute) : Prefixes × List (Str × Str) :=
  attrs.foldl
    (fun acc attr =>
      match attr.name.pfx, attr.name.name with
      | none, n =>
        if n = "xmlns".toList then (alInsert acc.1 none attr.value, acc.2)
        else (acc.1, alInsert acc.2 n attr.value)
      | some p, n =>
        if p = "xmlns".toList then (alInsert acc.1 (some n) attr.value, acc.2)
        else (acc.1, alInsert acc.2 (p ++ ':' :: n) attr.value))
    (Prefixes.empty, [])

/-- `TreeBuilder::process_start_tag`.  Note the source pushes the fresh
prefix set *before* the fallible namespace lookup, so the `Err` return
leaves `prefixes_stack` one longer than `stack`. -/
def TreeBuilder.processStartTag (tb : TreeBuilder) (name : LocalName)
    (attrs : List Attribute) : BuildRes × TreeBuilder :=
  let scanned := scanAttrs attrs
  let tb1 := { tb with prefixesStack := tb.prefixesStack ++ [scanned.1] }
  match tb1.lookupPfx name.pfx with
  | none => (.error .missingNamespace, tb1)
  | some ns =>
    (.ok, { tb1 with stack :=
      tb1.stack ++ [Element.mk name.name ns (some name.pfx) scanned.1 scanned.2 []] })

/-- `TreeBuilder::process_end_tag`: `pop` removes the top of both stacks
(no-ops on an empty `Vec`); an empty element stack silently ignores the
token. -/
def TreeBuilder.processEndTag (tb : TreeBuilder) (name : LocalName) :
    BuildRes × TreeBuilder :=
  let popped : TreeBuilder :=
    { tb with stack := tb.stack.dropLast, prefixesStack := tb.prefixesStack.dropLast }
  match tb.stack.getLast? with
  | none => (.ok, popped)
  | some el =>
    if el.name = name.name ∧ el.pfx = some name.pfx then
      match popped.stack.getLast? with
      | some top =>
        (.ok, { popped with stack := popped.stack.dropLast ++ [top.appendChild el] })
      | none => (.ok, { popped with root := some el })
    else (.error .invalidElementClosed, popped)

/-- `TreeBuilder::process_text`: appended to the top element, discarded at
depth 0. -/
def TreeBuilder.processText (tb : TreeBuilder) (t : Str) : TreeBuilder :=
  match tb.stack.getLast? with
  | none => tb
  | some top => { tb with stack := tb.stack.dropLast ++ [top.appendTextNode t] }

/-- `TreeBuilder::process_token`. -/
def TreeBuilder.processToken (tb : TreeBuilder) : Token → BuildRes × TreeBuilder
  | .xmlDecl => (.ok, tb)
  | .startTag name attrs false => tb.processStartTag name attrs
  | .startTag name attrs true =>
    match tb.processStartTag name attrs with
    | (.ok, tb1) => tb1.processEndTag name
    | r => r
  | .endTag name => tb.processEndTag name
  | .text t => (.ok, tb.processText t)

/-- Feed a token sequence through `process_token`, collecting every result
(the builder keeps being used after an `Err`, as the claims require). -/
def processRun : TreeBuilder → List Token → List BuildRes × TreeBuilder
  | tb, [] => ([], tb)
  | tb, t :: ts =>
    let r := tb.processToken t
    let rest := processRun r.2 ts
    (r.1 :: rest.1, rest.2)

/-- `namespace_set.rs` / `namespaces.rs` `NamespaceSet`, with the frozen
(acyclic, `RefCell`-installed-once) parent chain materialized. -/
inductive NamespaceSet where
  | mk (namespaces : List (Option Str × Str)) (parent : Option NamespaceSet)

/-- `NamespaceSet::get`: local map first, then the parent transitively. -/
def NamespaceSet.get : NamespaceSet → Option Str → Option Str
  | .mk ns none, p => alGet ns p
  | .mk ns (some parent), p =>
    match alGet ns p with
    | some u => some u
    | none => parent.get p

/-- `NamespaceSet::has`: compares in the nearest scope that declares the
prefix, recursing to the parent only when the local map has no entry. -/
def NamespaceSet.has : NamespaceSet → Option Str → Str → Bool
  | .mk ns none, p, u =>
    match alGet ns p with
    | some v => v = u
    | none => false
  | .mk ns (some parent), p, u =>
    match alGet ns p with
    | some v => v = u
    | none => parent.has p u

/-- The local maps along the parent chain, innermost first. -/
def NamespaceSet.chainMaps : NamespaceSet → List (List (Option Str × Str))
  | .mk ns none => [ns]
  | .mk ns (some parent) => ns :: parent.chainMaps

/-- Modelled from the spec (§4.1, §8.4): nearest-scope lookup — the value
declared for the prefix by the first set of the chain that declares it. -/
def specNearestGet (chain : List (List (Option Str × Str))) (p : Option Str) :
    Option Str :=
  match chain with
  | [] => none
  | m :: rest =>
    match alGet m p with
    | some u => some u
    | none => specNearestGet rest p

/-- A `TreeBuilder` whose two stacks have equal length (spec §4.4/§8.3). -/
def balancedTB (tb : TreeBuilder) : Prop :=
  tb.stack.length = tb.prefixesStack.length

theorem processEndTag_balanced (tb : TreeBuilder) (name : LocalName)
    (h : balancedTB tb) : balancedTB (tb.processEndTag name).2 := by
  unfold balancedTB at *
  unfold TreeBuilder.processEndTag
  cases hl : tb.stack.getLast? with
  | none =>
    dsimp only
    simp only [List.length_dropLast]
    omega
  | some el =>
    have hne : tb.stack ≠ [] := by
      intro he; rw [he] at hl; simp at hl
    have hpos : 0 < tb.stack.length := List.length_pos.mpr hne
    dsimp only
    by_cases hm : el.name = name.name ∧ el.pfx = some name.pfx
    · rw [if_pos hm]
      cases hp : (tb.stack.dropLast).getLast? with
      | none =>
        dsimp only
        simp only [List.length_dropLast]
        omega
      | some top =>
        dsimp only
        have hne2 : tb.stack.dropLast ≠ [] := by
          intro he; rw [he] at hp; simp at hp
        have hpos2 : 0 < tb.stack.dropLast.length := List.length_pos.mpr hne2
        simp only [List.length_append, List.length_dropLast, List.length_cons,
          List.length_nil]
        simp only [List.length_dropLast] at hpos2
        omega
    · rw [if_neg hm]
      dsimp only
      simp only [List.length_dropLast]
      omega

theorem processText_balanced (tb : TreeBuilder) (t : Str)
    (h : balancedTB tb) : balancedTB (tb.processText t) := by
  unfold balancedTB at *
  unfold TreeBuilder.processText
  cases hl : tb.stack.getLast? with
  | none => simpa using h
  | some top =>
    have hne : tb.stack ≠ [] := by
      intro he; rw [he] at hl; simp at hl
    have hpos : 0 < tb.stack.length := List.length_pos.mpr hne
    simp only [List.length_append, List.length_dropLast, List.length_cons,
      List.length_nil]
    omega

theorem processStartTag_balanced (tb : TreeBuilder) (name : LocalName)
    (attrs : List Attribute) (h : balancedTB tb)
    (hok : (tb.processStartTag name attrs).1 = .ok) :
    balancedTB (tb.processStartTag name attrs).2 := by
  unfold balancedTB at *
  simp only [TreeBuilder.processStartTag] at hok ⊢
  split at hok
  · simp at hok
  · next ns heq =>
    simp only [heq]
    simp only [List.length_append, List.length_cons, List.length_nil]
    omega

theorem processToken_balanced (tb : TreeBuilder) (t : Token)
    (h : balancedTB tb) (hok : (tb.processToken t).1 = .ok) :
    balancedTB (tb.processToken t).2 := by
  cases t with
  | xmlDecl => simpa [TreeBuilder.processToken] using h
  | text s => exact processText_balanced tb s h
  | endTag name => exact processEndTag_balanced tb name h
  | startTag name attrs selfClosing =>
    cases selfClosing with
    | false => exact processStartTag_balanced tb name attrs h hok
    | true =>
      show balancedTB (match tb.processStartTag name attrs with
        | (.ok, tb1) => tb1.processEndTag name
        | r => r).2
      cases hst : tb.processStartTag name attrs with
      | mk r tb1 =>
        cases r with
        | ok =>
          have h1 : balancedTB tb1 := by
            have := processStartTag_balanced tb name attrs h (by rw [hst])
            rwa [hst] at this
          simpa using processEndTag_balanced tb1 name h1
        | error e =>
          exfalso
          have : (tb.processToken (.startTag name attrs true)).1 = .ok := hok
          simp only [TreeBuilder.processToken, hst] at this
          simp at this

theorem processRun_balanced (ts : List Token) (tb : TreeBuilder)
    (h : balancedTB tb)
    (hok : ∀ r ∈ (processRun tb ts).1, r = .ok) :
    balancedTB (processRun tb ts).2 := by
  induction ts generalizing tb with
  | nil => simpa [processRun] using h
  | cons t ts ih =>
    have hok1 : (tb.processToken t).1 = .ok := by
      have := hok (tb.processToken t).1
      apply this
      simp [processRun]
    have hbal1 := processToken_balanced tb t h hok1
    have hrest : ∀ r ∈ (processRun (tb.processToken t).2 ts).1, r = .ok := by
      intro r hr
      apply hok
      simp [processRun]
      right; exact hr
    have := ih (tb.processToken t).2 hbal1 hrest
    simpa [processRun] using this

theorem nsHasIffGet : ∀ (s : NamespaceSet) (p : Option Str) (u : Str),
    s.has p u = true ↔ s.get p = some u
  | .mk ns none, p, u => by
    simp only [NamespaceSet.has, NamespaceSet.get]
    cases alGet ns p with
    | none => simp
    | some v => simp [decide_eq_true_eq]
  | .mk ns (some parent), p, u => by
    simp only [NamespaceSet.has, NamespaceSet.get]
    cases alGet ns p with
    | none => exact nsHasIffGet parent p u
    | some v => simp [decide_eq_true_eq]

theorem nsGetChain : ∀ (s : NamespaceSet) (p : Option Str),
    s.get p = specNearestGet s.chainMaps p
  | .mk ns none, p => by
    simp only [NamespaceSet.get, NamespaceSet.chainMaps, specNearestGet]
    cases alGet ns p <;> rfl
  | .mk ns (some parent), p => by
    simp only [NamespaceSet.get, NamespaceSet.chainMaps, specNearestGet]
    cases alGet ns p with
    | none => exact nsGetChain parent p
    | some v => rfl

theorem specNearestGet_none_iff (p : Option Str) :
    ∀ (chain : List (List (Option Str × Str))),
    specNearestGet chain p = none ↔ ∀ m ∈ chain, alGet m p = none
  | [] => by simp [specNearestGet]
  | m :: rest => by
    simp only [specNearestGet]
    cases h : alGet m p with
    | none => simp [h, specNearestGet_none_iff p rest]
    | some v => simp [h]

/-- C8: for every `NamespaceSet` (any frozen parent chain), prefix `p` and
URI `u`, `has p u` returns `true` exactly when `get p = some u`; the
comparison happens in the nearest scope that declares `p`. -/
theorem c8_has_iff_get (s : NamespaceSet) (p : Option Str) (u : Str) :
    s.has p u = true ↔ s.get p = some u :=
  nsHasIffGet s p u

/-- C9: `NamespaceSet::get` is nearest-scope lookup — it returns the
binding of the nearest set in the (frozen, acyclic) parent chain that
declares the prefix (`specNearestGet`, modelled from the spec's words),
and `none` exactly when no set in the chain declares it; an inner binding
therefore overrides every outer one, including the default prefix. -/
theorem c9_nearest_scope (s : NamespaceSet) (p : Option Str) :
    s.get p = specNearestGet s.chainMaps p
    ∧ (s.get p = none ↔ ∀ m ∈ s.chainMaps, alGet m p = none) := by
  refine ⟨nsGetChain s p, ?_⟩
  rw [nsGetChain s p]
  exact specNearestGet_none_iff p s.chainMaps

/-- C4: the claim says `pull` returns `Ok(None)` on every buffer that is a
proper prefix of a valid token, in particular on `<![CDATA[` plus fewer
than two bytes — but there the CDATA scan's `for i in 0..s.len() - 2`
underflows its `usize` bound and the code panics; with two bytes buffered
it is `Ok(None)` as claimed. -/
theorem c4_cdata_short_buffer_panics :
    pullStep (strBytes "<![CDATA[") = (.panicked, strBytes "<![CDATA[")
    ∧ pullStep (strBytes "<![CDATA[]") = (.panicked, strBytes "<![CDATA[]")
    ∧ pullStep (strBytes "<![CDATA[]]") = (.okNone, strBytes "<![CDATA[]]") := by
  refine ⟨by decide, by decide, by decide⟩

/-- C1: chunk invariance fails on the code — pushing `<![CDATA[]]>` whole
and pulling yields `Text("")` with an empty residue, while pushing the
partition `<![CDATA[` · `]]>` with a pull after each push panics on the
first chunk (the CDATA scan's `usize` underflow), emitting no token. -/
theorem c1_chunk_invariance_broken :
    runOneShot 4 (strBytes "<![CDATA[]]>") = ([Token.text []], [], .done)
    ∧ runChunks 4 [strBytes "<![CDATA[", strBytes "]]>"] []
      = ([], strBytes "<![CDATA[", .panicked) := by
  refine ⟨by decide, by decide⟩

/-- C3: the claim says an unknown named entity at the front of a text run
makes `pull` return `Err` — but the `many0` inside `parse_text` turns the
branch failure into an empty match list, so `pull` on `&foo;` returns
`Ok(Some(Text("")))` consuming no bytes, and repeated pulls loop there
forever instead of erroring. -/
theorem c3_unknown_entity_not_an_error :
    pullStep (strBytes "&foo;") = (.okSome (Token.text []), strBytes "&foo;")
    ∧ pullLoop 3 (strBytes "&foo;")
      = ([Token.text [], Token.text [], Token.text []], strBytes "&foo;", .fuelOut) := by
  refine ⟨by decide, by decide⟩

/-- C2 counterexample: tokenizing `<foo bar='baz'>quux</foo>` gives the
three expected tokens, but processing them from the empty builder state
does not succeed — the unprefixed `foo` with no default namespace in
scope makes the very first `process_token` return `MissingNamespace`, and
no root is ever produced. -/
theorem c2_unprefixed_foo_fails :
    runOneShot 5 (strBytes "<foo bar='baz'>quux</foo>")
      = ([Token.startTag ⟨none, "foo".toList⟩
            [⟨⟨none, "bar".toList⟩, "baz".toList⟩] false,
          Token.text "quux".toList,
          Token.endTag ⟨none, "foo".toList⟩], [], .done)
    ∧ (processRun TreeBuilder.new
        [Token.startTag ⟨none, "foo".toList⟩
            [⟨⟨none, "bar".toList⟩, "baz".toList⟩] false,
          Token.text "quux".toList,
          Token.endTag ⟨none, "foo".toList⟩]).1
      = [.error .missingNamespace, .ok, .ok]
    ∧ (processRun TreeBuilder.new
        [Token.startTag ⟨none, "foo".toList⟩
            [⟨⟨none, "bar".toList⟩, "baz".toList⟩] false,
          Token.text "quux".toList,
          Token.endTag ⟨none, "foo".toList⟩]).2.root.isNone = true := by
  refine ⟨by decide, by decide, by decide⟩

/-- C2 amended: `process_start_tag` resolves the element's prefix against
the whole stack including the freshly pushed declarations, and *every*
unresolved prefix — the absent prefix with no default namespace in scope
included — is the fatal `MissingNamespace` error (there is no
empty-string fallback); the failed call leaves the fresh prefix set
pushed. -/
theorem c2_unresolved_pfx_missing_namespace (tb : TreeBuilder)
    (name : LocalName) (attrs : List Attribute)
    (h : lookupPfxRev (tb.prefixesStack ++ [(scanAttrs attrs).1]).reverse name.pfx
         = none) :
    tb.processToken (.startTag name attrs false)
      = (.error .missingNamespace,
         { tb with prefixesStack := tb.prefixesStack ++ [(scanAttrs attrs).1] }) := by
  show tb.processStartTag name attrs = _
  simp only [TreeBuilder.processStartTag, TreeBuilder.lookupPfx]
  simp only [h]

theorem c2_unresolved_pfx_missing_namespace_witness :
    lookupPfxRev (TreeBuilder.new.prefixesStack
        ++ [(scanAttrs [⟨⟨none, "bar".toList⟩, "baz".toList⟩]).1]).reverse
      (LocalName.mk none "foo".toList).pfx = none
    ∧ TreeBuilder.new.processToken
        (.startTag ⟨none, "foo".toList⟩ [⟨⟨none, "bar".toList⟩, "baz".toList⟩] false)
      = (.error .missingNamespace,
         { TreeBuilder.new with prefixesStack := TreeBuilder.new.prefixesStack
             ++ [(scanAttrs [⟨⟨none, "bar".toList⟩, "baz".toList⟩]).1] }) :=
  ⟨by decide, c2_unresolved_pfx_missing_namespace TreeBuilder.new _ _ (by decide)⟩

/-- C6 counterexample: the balance is *not* maintained after an erroring
call — one `StartTag` for unprefixed `foo` from the initial state returns
`Err(MissingNamespace)` and leaves `stack` empty but `prefixes_stack` of
length 1. -/
theorem c6_unbalanced_after_error :
    (processRun TreeBuilder.new [Token.startTag ⟨none, "foo".toList⟩ [] false]).1
      = [.error .missingNamespace]
    ∧ (processRun TreeBuilder.new
        [Token.startTag ⟨none, "foo".toList⟩ [] false]).2.stack.length = 0
    ∧ (processRun TreeBuilder.new
        [Token.startTag ⟨none, "foo".toList⟩ [] false]).2.prefixesStack.length = 1 := by
  refine ⟨by decide, by decide, by decide⟩

/-- C6 amended: along any token sequence in which every `process_token`
call returns `Ok`, `stack.len() == prefixes_stack.len()` holds at every
observation point (every such sequence's final state; prefixes of an
all-`Ok` run are all-`Ok`). -/
theorem c6_stack_balance_when_ok (ts : List Token)
    (hok : ∀ r ∈ (processRun TreeBuilder.new ts).1, r = .ok) :
    (processRun TreeBuilder.new ts).2.stack.length
      = (processRun TreeBuilder.new ts).2.prefixesStack.length :=
  processRun_balanced ts TreeBuilder.new rfl hok

theorem c6_stack_balance_when_ok_witness :
    (∀ r ∈ (processRun TreeBuilder.new
        [Token.startTag ⟨none, "s".toList⟩
          [⟨⟨none, "xmlns".toList⟩, "urn:x".toList⟩] false]).1, r = .ok)
    ∧ (processRun TreeBuilder.new
        [Token.startTag ⟨none, "s".toList⟩
          [⟨⟨none, "xmlns".toList⟩, "urn:x".toList⟩] false]).2.stack.length
      = (processRun TreeBuilder.new
        [Token.startTag ⟨none, "s".toList⟩
          [⟨⟨none, "xmlns".toList⟩, "urn:x".toList⟩] false]).2.prefixesStack.length :=
  ⟨by decide, c6_stack_balance_when_ok _ (by decide)⟩

/-- C10 counterexample: on a builder with empty `stack` but non-empty
`prefixes_stack` (reachable via a failed start tag), an `EndTag` returns
`Ok` yet *changes* the state: `pop` removes the last `prefixes_stack`
entry. -/
theorem c10_endtag_pops_prefixes :
    TreeBuilder.processToken ⟨[], [Prefixes.empty], none⟩
        (.endTag ⟨none, "foo".toList⟩)
      = (.ok, ⟨[], [], none⟩)
    ∧ ([Prefixes.empty] : List Prefixes) ≠ [] := by
  refine ⟨rfl, by decide⟩

/-- C10 amended: on any builder with empty `stack`, an `EndTag` token is
silently discarded — `process_token` returns `Ok(())`, `stack` and `root`
are untouched, and `prefixes_stack` loses its last entry (hence it is
unchanged exactly when it is empty too, as in balanced states). -/
theorem c10_endtag_on_empty_stack (tb : TreeBuilder) (name : LocalName)
    (h : tb.stack = []) :
    tb.processToken (.endTag name)
      = (.ok, { tb with prefixesStack := tb.prefixesStack.dropLast }) := by
  cases tb with
  | mk stack pstack root =>
    simp only at h
    subst h
    rfl

theorem c10_endtag_on_empty_stack_witness :
    (TreeBuilder.mk [] [Prefixes.empty, Prefixes.empty] none).stack = []
    ∧ (TreeBuilder.mk [] [Prefixes.empty, Prefixes.empty] none).processToken
        (.endTag ⟨none, "e".toList⟩)
      = (.ok, { TreeBuilder.mk [] [Prefixes.empty, Prefixes.empty] none with
          prefixesStack :=
            (TreeBuilder.mk [] [Prefixes.empty, Prefixes.empty] none).prefixesStack.dropLast }) :=
  ⟨rfl, c10_endtag_on_empty_stack _ _ rfl⟩

/-- A parser is suffix-sound: an `ok` remainder is always a suffix of the
input (the parser consumes only from the front). -/
def SufOK {α : Type} (q : List Nat → PResult α) : Prop :=
  ∀ s s1 a, q s = .ok s1 a → s1 <:+ s

theorem sufOK_bind {α β : Type} {g : List Nat → PResult α}
    {k : List Nat → α → PResult β}
    (h1 : SufOK g) (h2 : ∀ a, SufOK (fun s => k s a)) :
    SufOK (fun s => pbind (g s) k) := by
  intro s s1 b h
  dsimp only at h
  cases hg : g s with
  | ok sm a =>
    rw [hg] at h
    simp only [pbind] at h
    exact (h2 a sm s1 b h).trans (h1 s sm a hg)
  | err => rw [hg] at h; simp [pbind] at h
  | fail => rw [hg] at h; simp [pbind] at h
  | incomplete => rw [hg] at h; simp [pbind] at h
  | panic => rw [hg] at h; simp [pbind] at h

theorem sufOK_palt {α : Type} {g q : List Nat → PResult α}
    (hg : SufOK g) (hq : SufOK q) : SufOK (fun s => palt (g s) (q s)) := by
  intro s s1 a hp
  dsimp only at hp
  cases hgs : g s with
  | err =>
    rw [hgs] at hp
    exact hq s s1 a (by simpa [palt] using hp)
  | ok sm b =>
    rw [hgs] at hp
    simp only [palt] at hp
    exact hg s s1 a (hgs.trans hp)
  | fail => rw [hgs] at hp; simp [palt] at hp
  | incomplete => rw [hgs] at hp; simp [palt] at hp
  | panic => rw [hgs] at hp; simp [palt] at hp

theorem sufOK_pure {α : Type} (f : List Nat → α) :
    SufOK (fun s => PResult.ok s (f s)) := by
  intro s s1 a h
  dsimp only at h
  injection h with h1 h2
  subst h1
  exact List.suffix_refl s

theorem tagP_sufOK (t : List Nat) : SufOK (tagP t) := by
  intro s s1 a h
  unfold tagP at h
  split at h
  · split at h <;> simp at h
  · split at h
    · injection h with h1 h2
      subst h1
      exact List.drop_suffix _ _
    · simp at h

theorem takeWhile1P_sufOK (p : Nat → Bool) : SufOK (takeWhile1P p) := by
  intro s s1 a h
  cases s with
  | nil => simp [takeWhile1P] at h
  | cons b l =>
    unfold takeWhile1P at h
    dsimp only at h
    split at h
    · split at h
      · simp at h
      · injection h with h1 h2
        subst h1
        exact List.drop_suffix _ _
    · simp at h

theorem space0P_sufOK : SufOK space0P := by
  intro s s1 a h
  unfold space0P at h
  dsimp only at h
  split at h
  · simp at h
  · injection h with h1 h2
    subst h1
    exact List.drop_suffix _ _

theorem charP_sufOK (c : Nat) : SufOK (charP c) := by
  intro s s1 a h
  cases s with
  | nil => simp [charP] at h
  | cons b l =>
    unfold charP at h
    dsimp only at h
    split at h
    · injection h with h1 h2
      subst h1
      exact List.suffix_cons b l
    · simp at h

theorem quoteP_sufOK : SufOK quoteP := by
  intro s s1 a h
  cases s with
  | nil => simp [quoteP] at h
  | cons b l =>
    unfold quoteP at h
    dsimp only at h
    split at h
    · injection h with h1 h2
      subst h1
      exact List.suffix_cons b l
    · simp at h

theorem notPeekCharP_sufOK (c : Nat) : SufOK (notPeekCharP c) := by
  intro s s1 a h
  unfold notPeekCharP at h
  split at h
  · simp at h
  · injection h with h1 h2
    subst h1
    exact List.suffix_refl s
  · simp at h
  · simp at h
  · simp at h

theorem digit1P_sufOK : SufOK digit1P :=
  takeWhile1P_sufOK isDigitB

theorem hexU32P_sufOK : SufOK hexU32P := by
  intro s s1 a h
  cases s with
  | nil => simp [hexU32P] at h
  | cons b l =>
    unfold hexU32P at h
    dsimp only at h
    split at h
    · split at h
      · simp at h
      · injection h with h1 h2
        subst h1
        split
        · exact List.drop_suffix _ _
        · exact List.drop_suffix _ _
    · simp at h

theorem many0F_sufOK {α : Type} (p : List Nat → PResult α) (hp : SufOK p) :
    ∀ fuel, SufOK (many0F p fuel) := by
  intro fuel
  induction fuel with
  | zero => intro s s1 a h; simp [many0F] at h
  | succ n ih =>
    intro s s1 acc h
    unfold many0F at h
    cases hps : p s with
    | err =>
      rw [hps] at h
      dsimp only at h
      injection h with h1 h2
      subst h1
      exact List.suffix_refl s
    | fail => rw [hps] at h; simp at h
    | incomplete => rw [hps] at h; simp at h
    | panic => rw [hps] at h; simp at h
    | ok sm a0 =>
      rw [hps] at h
      dsimp only at h
      split at h
      · simp at h
      · cases hm : many0F p n sm with
        | ok s2 acc2 =>
          rw [hm] at h
          dsimp only at h
          injection h with h1 h2
          subst h1
          exact (ih sm s2 acc2 hm).trans (hp s sm a0 hps)
        | err => rw [hm] at h; simp at h
        | fail => rw [hm] at h; simp at h
        | incomplete => rw [hm] at h; simp at h
        | panic => rw [hm] at h; simp at h

theorem many0P_sufOK {α : Type} (p : List Nat → PResult α) (hp : SufOK p) :
    SufOK (many0P p) := by
  intro s s1 a h
  exact many0F_sufOK p hp (s.length + 1) s s1 a h

theorem utf8Match_sufOK {β : Type} (bytes : List Nat) (f : Str → β) :
    SufOK (fun s => (match utf8Decode bytes with
      | none => PResult.fail
      | some text => PResult.ok s (f text))) := by
  intro s s1 a h
  dsimp only at h
  cases hm : utf8Decode bytes with
  | none => rw [hm] at h; simp at h
  | some text =>
    rw [hm] at h
    injection h with h1 h2
    subst h1
    exact List.suffix_refl s

theorem decEntityP_sufOK : SufOK decEntityP := by
  have hlast : ∀ (num : List Nat), SufOK (fun s =>
      (match utf8Decode num with
       | none => PResult.fail
       | some numStr =>
         match parseU32 numStr with
         | none => PResult.fail
         | some n => PResult.ok s (charFromU32OrEmpty n))) := by
    intro num s s1 a h
    dsimp only at h
    cases hm : utf8Decode num with
    | none => rw [hm] at h; simp at h
    | some numStr =>
      rw [hm] at h
      dsimp only at h
      cases hu : parseU32 numStr with
      | none => rw [hu] at h; simp at h
      | some n =>
        rw [hu] at h
        injection h with h1 h2
        subst h1
        exact List.suffix_refl s
  exact sufOK_bind (tagP_sufOK _) fun _ =>
    sufOK_bind digit1P_sufOK fun num =>
      sufOK_bind (charP_sufOK 59) fun _ => hlast num

theorem hexEntityP_sufOK : SufOK hexEntityP :=
  sufOK_bind (tagP_sufOK _) fun _ =>
    sufOK_bind hexU32P_sufOK fun n =>
      sufOK_bind (charP_sufOK 59) fun _ =>
        sufOK_pure (fun _ => charFromU32OrEmpty n)

theorem namedEntityP_sufOK : SufOK namedEntityP :=
  sufOK_bind (charP_sufOK 38) fun _ =>
    sufOK_bind
      (sufOK_palt (sufOK_bind (tagP_sufOK _) fun _ => sufOK_pure (fun _ => '&'))
        (sufOK_palt (sufOK_bind (tagP_sufOK _) fun _ => sufOK_pure (fun _ => '<'))
          (sufOK_palt (sufOK_bind (tagP_sufOK _) fun _ => sufOK_pure (fun _ => '>'))
            (sufOK_palt (sufOK_bind (tagP_sufOK _) fun _ => sufOK_pure (fun _ => '"'))
              (sufOK_bind (tagP_sufOK _) fun _ => sufOK_pure (fun _ => '\''))))))
      fun c =>
        sufOK_bind (charP_sufOK 59) fun _ => sufOK_pure (fun _ => [c])

theorem rawTextP_sufOK (stopB : Nat) : SufOK (rawTextP stopB) :=
  sufOK_bind (notPeekCharP_sufOK stopB) fun _ =>
    sufOK_bind (takeWhile1P_sufOK _) fun bytes =>
      utf8Match_sufOK bytes id

theorem textPieceP_sufOK (stopB : Nat) : SufOK (textPieceP stopB) :=
  sufOK_palt decEntityP_sufOK
    (sufOK_palt hexEntityP_sufOK
      (sufOK_palt namedEntityP_sufOK (rawTextP_sufOK stopB)))

theorem parseText_sufOK (stopB : Nat) : SufOK (parseText stopB) :=
  sufOK_bind (many0P_sufOK _ (textPieceP_sufOK stopB)) fun pieces =>
    sufOK_pure (fun _ => pieces.flatten)

theorem parseAttr_sufOK : SufOK parseAttr := by
  have hrest : ∀ (name : Str), SufOK (fun s =>
      pbind (space0P s) fun s _ =>
      pbind (tagP (strBytes "=") s) fun s _ =>
      pbind (space0P s) fun s _ =>
      pbind (quoteP s) fun s delim =>
      pbind (parseText delim s) fun s value =>
      pbind (charP delim s) fun s _ =>
      PResult.ok s (name, value)) := by
    intro name
    exact sufOK_bind space0P_sufOK fun _ =>
      sufOK_bind (tagP_sufOK _) fun _ =>
        sufOK_bind space0P_sufOK fun _ =>
          sufOK_bind quoteP_sufOK fun delim =>
            sufOK_bind (parseText_sufOK delim) fun value =>
              sufOK_bind (charP_sufOK delim) fun _ =>
                sufOK_pure (fun _ => (name, value))
  refine sufOK_bind (takeWhile1P_sufOK _) fun nameBytes => ?_
  intro s s1 a h
  cases hm : utf8Decode nameBytes with
  | none => rw [hm] at h; simp at h
  | some name =>
    rw [hm] at h
    exact hrest name s s1 a h

theorem cdataP_sufOK : SufOK cdataP := by
  refine sufOK_bind (tagP_sufOK _) fun _ => ?_
  intro s s1 a h
  dsimp only at h
  split at h
  · simp at h
  · cases hf : (List.range (s.length - 2)).find?
        (fun i => (s.drop i).take 3 == strBytes "]]>") with
    | none => rw [hf] at h; simp at h
    | some e =>
      rw [hf] at h
      dsimp only at h
      cases hd : utf8Decode (s.take e) with
      | none => rw [hd] at h; simp at h
      | some text =>
        rw [hd] at h
        injection h with h1 h2
        subst h1
        exact List.drop_suffix _ _

theorem endTagP_sufOK : SufOK endTagP :=
  sufOK_bind (tagP_sufOK _) fun _ =>
    sufOK_bind space0P_sufOK fun _ =>
      sufOK_bind (takeWhile1P_sufOK _) fun nameBytes =>
        sufOK_bind space0P_sufOK fun _ =>
          sufOK_bind (tagP_sufOK _) fun _ =>
            utf8Match_sufOK nameBytes (fun name => Token.endTag (LocalName.ofStr name))

theorem startTagP_sufOK : SufOK startTagP :=
  sufOK_bind space0P_sufOK fun _ =>
    sufOK_bind (takeWhile1P_sufOK _) fun nameBytes =>
      sufOK_bind space0P_sufOK fun _ =>
        sufOK_bind
          (many0P_sufOK _
            (sufOK_bind parseAttr_sufOK fun nv =>
              sufOK_bind space0P_sufOK fun _ => sufOK_pure (fun _ => nv)))
          fun attrs =>
            sufOK_bind
              (sufOK_palt
                (sufOK_bind (tagP_sufOK _) fun _ =>
                  sufOK_bind space0P_sufOK fun _ =>
                    sufOK_bind (tagP_sufOK _) fun _ => sufOK_pure (fun _ => true))
                (sufOK_bind (tagP_sufOK _) fun _ => sufOK_pure (fun _ => false)))
              fun selfClosing =>
                utf8Match_sufOK nameBytes (fun name =>
                  Token.startTag (LocalName.ofStr name)
                    (attrs.map fun nv => { name := LocalName.ofStr nv.1, value := nv.2 })
                    selfClosing)

theorem parseTag_sufOK : SufOK parseTag :=
  sufOK_bind (tagP_sufOK _) fun _ =>
    sufOK_palt cdataP_sufOK (sufOK_palt endTagP_sufOK startTagP_sufOK)

theorem tokenParse_sufOK : SufOK tokenParse :=
  sufOK_palt parseTag_sufOK
    (sufOK_bind (parseText_sufOK 60) fun text => sufOK_pure (fun _ => Token.text text))

theorem drop_length_sub_of_suffix {s buffer : List Nat} (h : s <:+ buffer) :
    buffer.drop (buffer.length - s.length) = s := by
  obtain ⟨t, rfl⟩ := h
  have hlen : (t ++ s).length - s.length = t.length := by
    simp [List.length_append]
  rw [hlen]
  exact List.drop_left t s

/-- C5: buffer conservation of `Tokenizer::pull` — when the parse
succeeds, exactly the token's bytes are removed from the front: the new
buffer equals the parser's remaining suffix; when the buffer holds no
complete token yet (`incomplete`), `pull` returns `Ok(None)` and the
buffer is byte-for-byte unchanged. -/
theorem c5_buffer_conservation (buffer : List Nat) :
    (∀ s tok, tokenParse buffer = .ok s tok →
      pullStep buffer = (.okSome tok, s) ∧ s <:+ buffer)
    ∧ (tokenParse buffer = .incomplete → pullStep buffer = (.okNone, buffer)) := by
  constructor
  · intro s tok h
    have hs : s <:+ buffer := tokenParse_sufOK buffer s tok h
    refine ⟨?_, hs⟩
    unfold pullStep
    rw [h]
    dsimp only
    rw [drop_length_sub_of_suffix hs]
  · intro h
    unfold pullStep
    rw [h]

theorem c5_buffer_conservation_witness :
    (pullStep (strBytes "<a>x")
        = (.okSome (Token.startTag ⟨none, "a".toList⟩ [] false), strBytes "x")
      ∧ (strBytes "x") <:+ (strBytes "<a>x"))
    ∧ pullStep (strBytes "<a") = (.okNone, strBytes "<a") :=
  ⟨(c5_buffer_conservation (strBytes "<a>x")).1 (strBytes "x") _ (by decide),
   (c5_buffer_conservation (strBytes "<a")).2 (by decide)⟩

/-- Numeric value of an ASCII decimal digit string, as `u32::from_str`
computes it (before the overflow check). -/
def digitsVal (ds : List Nat) : Nat :=
  ds.foldl (fun acc b => acc * 10 + (b - 48)) 0

theorem takeWhile_append_all {p : Nat → Bool} {c : Nat} (hc : p c = false) :
    ∀ (ds l : List Nat), (∀ b ∈ ds, p b = true) →
    (ds ++ c :: l).takeWhile p = ds := by
  intro ds
  induction ds with
  | nil => intro l _; simp [List.takeWhile_cons, hc]
  | cons b t ih =>
    intro l h
    have hb : p b = true := h b (List.mem_cons_self b t)
    simp only [List.cons_append, List.takeWhile_cons, hb, if_true]
    rw [ih l (fun x hx => h x (List.mem_cons_of_mem b hx))]

theorem takeWhile1P_exact {p : Nat → Bool} (ds l : List Nat) (c : Nat)
    (hc : p c = false) (hne : ds ≠ []) (hall : ∀ b ∈ ds, p b = true) :
    takeWhile1P p (ds ++ c :: l) = .ok (c :: l) ds := by
  cases ds with
  | nil => exact absurd rfl hne
  | cons b t =>
    have hb : p b = true := hall b (List.mem_cons_self b t)
    have htake : (b :: (t ++ c :: l)).takeWhile p = b :: t := by
      rw [← List.cons_append]
      exact takeWhile_append_all hc (b :: t) l hall
    rw [List.cons_append]
    unfold takeWhile1P
    dsimp only
    rw [hb]
    simp only [if_true, htake]
    have hlen : ¬((b :: t).length = (b :: (t ++ c :: l)).length) := by
      simp [List.length_append]
    rw [if_neg hlen]
    have hdrop : (b :: (t ++ c :: l)).drop (b :: t).length = c :: l := by
      rw [← List.cons_append]
      exact List.drop_left (b :: t) (c :: l)
    rw [hdrop]

theorem tagP_exact (t l : List Nat) : tagP t (t ++ l) = .ok l t := by
  unfold tagP
  have h1 : ¬((t ++ l).length < t.length) := by simp [List.length_append]
  rw [if_neg h1, if_pos (List.take_left t l), List.drop_left]

theorem tagP_single_ne {c b : Nat} (l : List Nat) (h : b ≠ c) :
    tagP [c] (b :: l) = .err := by
  unfold tagP
  have h1 : ¬((b :: l).length < [c].length) := by simp
  rw [if_neg h1]
  have h2 : (b :: l).take [c].length ≠ [c] := by simp [h]
  rw [if_neg h2]

theorem utf8DecodeF_ascii :
    ∀ (fuel : Nat) (l : List Nat), l.length ≤ fuel → (∀ b ∈ l, b ≤ 127) →
    utf8DecodeF fuel l = some (l.map fun b => Char.ofNat b) := by
  intro fuel
  induction fuel with
  | zero =>
    intro l hl _
    cases l with
    | nil => rfl
    | cons b t => simp at hl
  | succ n ih =>
    intro l hl hall
    cases l with
    | nil => rfl
    | cons b t =>
      have hb : b ≤ 127 := hall b (List.mem_cons_self b t)
      unfold utf8DecodeF
      rw [if_pos hb]
      rw [ih t (by simpa using Nat.le_of_succ_le_succ (by simpa using hl))
          (fun x hx => hall x (List.mem_cons_of_mem b hx))]
      rfl

theorem utf8Decode_ascii (l : List Nat) (h : ∀ b ∈ l, b ≤ 127) :
    utf8Decode l = some (l.map fun b => Char.ofNat b) :=
  utf8DecodeF_ascii l.length l (Nat.le_refl _) h

theorem charOfNat_toNat_of_le {b : Nat} (h : b ≤ 127) :
    (Char.ofNat b).toNat = b := by
  have hv : b.isValidChar := Or.inl (by omega)
  simp [Char.ofNat, Char.toNat, Char.ofNatAux, hv, UInt32.toNat, BitVec.toNat_ofNatLt]

theorem parseU32_digits (ds : List Nat) (hdig : ∀ b ∈ ds, isDigitB b = true)
    (hmax : digitsVal ds ≤ 4294967295) :
    parseU32 (ds.map fun b => Char.ofNat b) = some (digitsVal ds) := by
  have hfold : (ds.map fun b => Char.ofNat b).foldl
      (fun acc c => acc * 10 + (c.toNat - 48)) 0 = digitsVal ds := by
    rw [List.foldl_map]
    unfold digitsVal
    apply List.foldl_ext
    intro a b hb
    have hd : isDigitB b = true := hdig b hb
    have hle : b ≤ 127 := by
      simp [isDigitB] at hd
      omega
    rw [charOfNat_toNat_of_le hle]
  unfold parseU32
  rw [hfold]
  rw [if_pos hmax]

theorem isDigitB_le_127 {b : Nat} (h : isDigitB b = true) : b ≤ 127 := by
  simp [isDigitB] at h
  omega

/-- C7 counterexample: the claim says decoding never fails for any digit
string, but the decimal reference `&#4294967296;` (2^32 overflows `u32`)
makes `pull` return `Err` via the `Failure` from `u32::from_str`. -/
theorem many0F_succ {α : Type} (p : List Nat → PResult α) (fuel : Nat)
    (s : List Nat) :
    many0F p (fuel + 1) s =
      (match p s with
       | .err => .ok s []
       | .fail => .fail
       | .incomplete => .incomplete
       | .panic => .panic
       | .ok s1 a =>
         if s1.length = s.length then .err
         else
           match many0F p fuel s1 with
           | .ok s2 acc => .ok s2 (a :: acc)
           | .err => .err
           | .fail => .fail
           | .incomplete => .incomplete
           | .panic => .panic) := rfl

theorem c7_decimal_overflow_errors :
    pullStep (strBytes "&#4294967296;") = (.error, strBytes "&#4294967296;") := by
  decide

/-- C7 amended: for every decimal character reference `&#N;` whose digit
string has value at most `u32::MAX`, the decoder succeeds and emits the
Unicode scalar with value N when N is a valid scalar, and the empty
string otherwise; digit strings beyond `u32::MAX` are a parse error
(`c7_decimal_overflow_errors`). -/
theorem c7_decimal_ref_decoding (ds : List Nat) (hne : ds ≠ [])
    (hdig : ∀ b ∈ ds, isDigitB b = true)
    (hmax : digitsVal ds ≤ 4294967295) :
    tokenParse (strBytes "&#" ++ ds ++ strBytes ";<")
      = .ok (strBytes "<") (Token.text (charFromU32OrEmpty (digitsVal ds))) := by
  have h1 : strBytes "&#" = [38, 35] := by decide
  have h2 : strBytes ";<" = [59, 60] := by decide
  have hO : strBytes "<" = [60] := by decide
  rw [h1, h2, hO]
  have hI : [38, 35] ++ ds ++ [59, 60] = 38 :: 35 :: (ds ++ 59 :: 60 :: []) := by
    simp
  rw [hI]
  -- the decimal entity branch succeeds on the whole reference
  have htag : tagP [38, 35] (38 :: 35 :: (ds ++ 59 :: 60 :: []))
      = .ok (ds ++ 59 :: 60 :: []) [38, 35] := by
    have := tagP_exact [38, 35] (ds ++ 59 :: 60 :: [])
    simpa using this
  have hdigit : digit1P (ds ++ 59 :: 60 :: []) = .ok (59 :: 60 :: []) ds := by
    unfold digit1P
    exact takeWhile1P_exact ds (60 :: []) 59 (by decide) hne hdig
  have hutf : utf8Decode ds = some (ds.map fun b => Char.ofNat b) :=
    utf8Decode_ascii ds (fun b hb => isDigitB_le_127 (hdig b hb))
  have hpar : parseU32 (ds.map fun b => Char.ofNat b) = some (digitsVal ds) :=
    parseU32_digits ds hdig hmax
  have hdec : decEntityP (38 :: 35 :: (ds ++ 59 :: 60 :: []))
      = .ok (60 :: []) (charFromU32OrEmpty (digitsVal ds)) := by
    unfold decEntityP
    rw [h1, htag]
    simp only [pbind]
    rw [hdigit]
    simp only [pbind]
    rw [show charP 59 (59 :: 60 :: []) = .ok (60 :: []) 59 from rfl]
    simp only [pbind]
    rw [hutf]
    dsimp only
    rw [hpar]
  have hpiece : textPieceP 60 (38 :: 35 :: (ds ++ 59 :: 60 :: []))
      = .ok (60 :: []) (charFromU32OrEmpty (digitsVal ds)) := by
    unfold textPieceP
    rw [hdec]
    simp only [palt]
  have hmany : many0P (textPieceP 60) (38 :: 35 :: (ds ++ 59 :: 60 :: []))
      = .ok (60 :: []) [charFromU32OrEmpty (digitsVal ds)] := by
    unfold many0P
    have hlen : (38 :: 35 :: (ds ++ 59 :: 60 :: [])).length + 1
        = (ds.length + 4) + 1 := by
      simp [List.length_append]
    rw [hlen]
    rw [many0F_succ]
    rw [hpiece]
    dsimp only
    have hcond : ¬((60 :: []).length = (38 :: 35 :: (ds ++ 59 :: 60 :: [])).length) := by
      simp [List.length_append]
    rw [if_neg hcond]
    have hfuel : ds.length + 4 = (ds.length + 3) + 1 := by omega
    rw [hfuel]
    rw [many0F_succ]
    rw [show textPieceP 60 (60 :: []) = .err by decide]
  have htext : parseText 60 (38 :: 35 :: (ds ++ 59 :: 60 :: []))
      = .ok (60 :: []) (charFromU32OrEmpty (digitsVal ds)) := by
    unfold parseText
    rw [hmany]
    simp only [pbind]
    simp
  have hptag : parseTag (38 :: 35 :: (ds ++ 59 :: 60 :: [])) = .err := by
    unfold parseTag
    rw [show strBytes "<" = [60] from by decide]
    rw [tagP_single_ne _ (by decide)]
    simp only [pbind]
  unfold tokenParse
  rw [hptag]
  simp only [palt]
  rw [htext]
  simp only [pbind]

theorem c7_decimal_ref_decoding_witness :
    (strBytes "55296" ≠ []
      ∧ (∀ b ∈ strBytes "55296", isDigitB b = true)
      ∧ digitsVal (strBytes "55296") ≤ 4294967295)
    ∧ tokenParse (strBytes "&#" ++ strBytes "55296" ++ strBytes ";<")
      = .ok (strBytes "<") (Token.text (charFromU32OrEmpty (digitsVal (strBytes "55296")))) :=
  ⟨⟨by decide, by decide, by decide⟩,
   c7_decimal_ref_decoding (strBytes "55296") (by decide) (by decide) (by decide)⟩
